import Mathlib

/-
Verification development for `perfstats.py` (class `PerformanceStats`).

The program is embedded shallowly:
  * Python strings are handled through their character lists; the builtins
    the source uses (`str.split()`, the `in` substring test, `int()`,
    `float()`) are modelled by executable Lean functions below.
  * The object's parallel list attributes become explicit record types
    (`Stats` for the raw collected tokens, `SortedStats` for the converted
    and sorted data, `PState` for the flat-or-partitioned shape the
    partitioner switches between).
  * Fallible Python code (missing files, `IndexError`, `ValueError`, the
    `assert`) is modelled with `Except PyErr` / `Option`.
  * `np.argsort(performance)` is an external call whose tie order is not
    specified; it is modelled by an explicit index-list parameter `idx`
    constrained by `isArgsortOf`, the guarantee NumPy documents for every
    sort kind.  Likewise `set(self.nthreads)` iterates in an unspecified
    order and is modelled by a parameter `omps` constrained to be a
    duplicate-free enumeration of the members of `nthreads`.
  * Python floats are modelled by exact rationals; the log tokens are plain
    decimal literals, whose relative order binary64 rounding preserves.
-/

/-! ## Models of the Python builtins used by the source -/

/-- Helper for the model of `str.split()`: chop a character list into the
maximal whitespace-free tokens, accumulating the current token reversed in
the second argument. -/
def wsTokensAux : List Char → List Char → List (List Char)
  | [], cur => if cur.isEmpty then [] else [cur.reverse]
  | c :: cs, cur =>
    if c.isWhitespace then
      if cur.isEmpty then wsTokensAux cs []
      else cur.reverse :: wsTokensAux cs []
    else wsTokensAux cs (c :: cur)

/-- Model of Python `line.split()` (no argument): split on runs of
whitespace, dropping empty tokens. -/
def pySplit (s : String) : List String :=
  (wsTokensAux s.data []).map (fun cs => String.mk cs)

/-- `leadsList pat cs`: `pat` is an initial segment of `cs`. -/
def leadsList : List Char → List Char → Bool
  | [], _ => true
  | _ :: _, [] => false
  | p :: ps, c :: cs => (p == c) && leadsList ps cs

/-- `occursIn pat cs`: `pat` occurs contiguously somewhere inside `cs`. -/
def occursIn : List Char → List Char → Bool
  | pat, [] => leadsList pat []
  | pat, c :: cs => leadsList pat (c :: cs) || occursIn pat cs

/-- Model of the Python substring test `pat in line`. -/
def containsSub (line pat : String) : Bool :=
  occursIn pat.data line.data

/-- Numeric value of a digit-character list. -/
def digitsVal (ds : List Char) : Nat :=
  ds.foldl (fun n c => 10 * n + (c.toNat - '0'.toNat)) 0

/-- Model of Python `int(s)` restricted to the token shapes the log grammar
produces: an optional minus sign followed by decimal digits; anything else
raises `ValueError` (here: `none`). -/
def pyInt (s : String) : Option Int :=
  match s.data with
  | [] => none
  | '-' :: ds =>
    if ds ≠ [] ∧ ds.all Char.isDigit then some (-(digitsVal ds : Int)) else none
  | ds =>
    if ds.all Char.isDigit then some ((digitsVal ds : Int)) else none

/-- Split a character list at the first `'.'`, keeping the remainder. -/
def breakDot : List Char → List Char × Option (List Char)
  | [] => ([], none)
  | c :: cs =>
    if c = '.' then ([], some cs)
    else
      let r := breakDot cs
      (c :: r.1, r.2)

/-- Model of Python `float(s)` restricted to plain decimal literals
(optional minus sign, integer digits, optional point and fraction digits),
the shape every performance token of the log grammar has.  The value is the
exact rational the literal denotes. -/
def pyFloat (s : String) : Option ℚ :=
  let core : List Char → Option ℚ := fun ds =>
    match breakDot ds with
    | (ip, none) =>
      if ip ≠ [] ∧ ip.all Char.isDigit then some ((digitsVal ip : ℚ)) else none
    | (ip, some fp) =>
      if (ip ≠ [] ∨ fp ≠ []) ∧ ip.all Char.isDigit ∧ fp.all Char.isDigit then
        some (mkRat (digitsVal ip * 10 ^ fp.length + digitsVal fp) (10 ^ fp.length))
      else none
  match s.data with
  | '-' :: ds => (core ds).map (fun q => -q)
  | ds => core ds

/-- Map a fallible function over a list, failing when any element fails —
the shape of every Python loop in the source that can raise. -/
def mapOpt {α β : Type} (f : α → Option β) : List α → Option (List β)
  | [] => some []
  | a :: as =>
    match f a, mapOpt f as with
    | some b, some bs => some (b :: bs)
    | _, _ => none

/-! ## The collector (`__init__` lines 36-44, `getStats` lines 54-82) -/

/-- Errors the constructor can raise. -/
inductive PyErr where
  | ioError (name : String)
  | indexError
  | valueError
  | assertionError
deriving DecidableEq

deriving instance DecidableEq for Except

/-- The collector's accumulation state: the four parallel token sequences
`self.nprocs`, `self.nthreads`, `self.performance`, `self.ngpus` built by
`getStats`, each holding raw string tokens in extraction order.  When
`gpuruns` is false the `ngpus` attribute does not exist on the Python
object; it is represented by the empty list (no code path touches it
then). -/
structure Stats where
  nprocs : List String
  nthreads : List String
  performance : List String
  ngpus : List String
deriving DecidableEq

/-- One iteration of the line loop of `getStats` (lines 63-80): the
`if`/`elif` chain appending `line.split()[1]` (or `line.split()[-3]` for
the GPU marker) to the matching sequence.  A marker line with too few
tokens raises `IndexError`; the `Fatal error` branch only prints. -/
def processLine (gpuruns : Bool) (st : Stats) (line : String) : Except PyErr Stats :=
  let toks := pySplit line
  if containsSub line "Using" && containsSub line "OpenMP" then
    match toks.get? 1 with
    | some t => .ok { st with nthreads := st.nthreads ++ [t] }
    | none => .error .indexError
  else if containsSub line "Using" && containsSub line "MPI" then
    match toks.get? 1 with
    | some t => .ok { st with nprocs := st.nprocs ++ [t] }
    | none => .error .indexError
  else if containsSub line "Performance:" then
    match toks.get? 1 with
    | some t => .ok { st with performance := st.performance ++ [t] }
    | none => .error .indexError
  else if gpuruns && containsSub line "compatible GPU" then
    if 3 ≤ toks.length then
      .ok { st with ngpus := st.ngpus ++ [toks.getD (toks.length - 3) ""] }
    else .error .indexError
  else .ok st

/-- The inner loop of `getStats`: process every line of one file. -/
def collectLines (gpuruns : Bool) : Stats → List String → Except PyErr Stats
  | st, [] => .ok st
  | st, l :: ls =>
    match processLine gpuruns st l with
    | .ok st2 => collectLines gpuruns st2 ls
    | .error e => .error e

/-- The name handed to `open()` (line 61): plain string concatenation
`self.path + file`, with no separator inserted. -/
def openName (path file : String) : String := path ++ file

/-- The outer loop of `getStats`: open every listed file (the file system
is a partial map from opened name to its lines; a missing name is a fatal
I/O error) and fold its lines into the state. -/
def collectFiles (gpuruns : Bool) (path : String) (fsys : String → Option (List String)) :
    Stats → List String → Except PyErr Stats
  | st, [] => .ok st
  | st, f :: fs =>
    match fsys (openName path f) with
    | none => .error (.ioError (openName path f))
    | some ls =>
      match collectLines gpuruns st ls with
      | .ok st2 => collectFiles gpuruns path fsys st2 fs
      | .error e => .error e

/-- The consistency condition of the `assert` (lines 81-82):
`len(self.nprocs) == len(self.nthreads) == len(self.performance)`.
The `ngpus` sequence does not appear in it. -/
def consistentLen (st : Stats) : Prop :=
  st.nprocs.length = st.nthreads.length ∧ st.nthreads.length = st.performance.length

instance (st : Stats) : Decidable (consistentLen st) :=
  inferInstanceAs (Decidable (_ ∧ _))

/-- `getStats` (lines 54-82): collect over all files, then the `assert`. -/
def getStats (gpuruns : Bool) (path : String) (fsys : String → Option (List String))
    (files : List String) : Except PyErr Stats :=
  match collectFiles gpuruns path fsys ⟨[], [], [], []⟩ files with
  | .error e => .error e
  | .ok st => if consistentLen st then .ok st else .error .assertionError

/-- Line 36: keep the directory entries whose name contains `.log`. -/
def listLogFiles (listing : List String) : List String :=
  listing.filter (fun f => containsSub f ".log")

/-- A line matched by one of the recognized marker rules of the line loop
(the four extraction markers and the `Fatal error` diagnostic). -/
def recognizedMarker (line : String) : Bool :=
  (containsSub line "Using" && containsSub line "OpenMP") ||
  (containsSub line "Using" && containsSub line "MPI") ||
  containsSub line "Performance:" ||
  containsSub line "compatible GPU" ||
  containsSub line "Fatal error"

/-! ## The normalizer/sorter (`sortStats` lines 84-102) -/

/-- The converted and sorted parallel sequences after `sortStats`.  When
`gpuruns` is false `ngpus` does not exist on the object and is represented
by the empty list. -/
structure SortedStats where
  files : List String
  nprocs : List Int
  nthreads : List Int
  performance : List ℚ
  ncpus : List Int
  ngpus : List Int
deriving DecidableEq

/-- NumPy fancy indexing `arr[idx]`: pick element `i` for each `i` in
`idx`, raising `IndexError` when an index is out of range. -/
def npIndex {α : Type} (xs : List α) (idx : List Nat) : Option (List α) :=
  mapOpt (fun i => xs.get? i) idx

/-- Line 98: `[self.nprocs[i] * self.nthreads[i] for i in range(len(self.nprocs))]`. -/
def computeNcpus (nprocs nthreads : List Int) : Option (List Int) :=
  mapOpt
    (fun i =>
      match nprocs.get? i, nthreads.get? i with
      | some a, some b => some (a * b)
      | _, _ => none)
    (List.range nprocs.length)

/-- The guarantee NumPy documents for `np.argsort(perf)` under every sort
kind: the result is a permutation of `range(len(perf))` along which `perf`
is non-decreasing.  The default kind (quicksort) promises nothing beyond
this; in particular it does not promise stability, so the model quantifies
over every index list satisfying this predicate. -/
def isArgsortOf (perf : List ℚ) (idx : List Nat) : Prop :=
  List.Perm idx (List.range perf.length) ∧
  List.Sorted (· ≤ ·) (idx.map (fun i => perf.getD i 0))

/-- `sortStats` (lines 84-102) with the `np.argsort` result as the explicit
parameter `idx`: convert `nprocs`/`nthreads` with `int()` and `performance`
with `float()` (lines 89-91), permute `files`, `nprocs`, `nthreads`,
`performance` by `idx` (lines 94-97), derive `ncpus` (line 98), and when
`gpuruns` also convert and permute `ngpus` (lines 100-102). -/
def sortStats (gpuruns : Bool) (files : List String) (st : Stats) (idx : List Nat) :
    Except PyErr SortedStats :=
  match mapOpt pyInt st.nprocs, mapOpt pyInt st.nthreads, mapOpt pyFloat st.performance with
  | some nprocs0, some nthreads0, some perf0 =>
    match npIndex files idx, npIndex nprocs0 idx, npIndex nthreads0 idx, npIndex perf0 idx with
    | some files1, some nprocs1, some nthreads1, some perf1 =>
      match computeNcpus nprocs1 nthreads1 with
      | some ncpus1 =>
        if gpuruns then
          match mapOpt pyInt st.ngpus with
          | some ngpus0 =>
            match npIndex ngpus0 idx with
            | some ngpus1 => .ok ⟨files1, nprocs1, nthreads1, perf1, ncpus1, ngpus1⟩
            | none => .error .indexError
          | none => .error .valueError
        else .ok ⟨files1, nprocs1, nthreads1, perf1, ncpus1, []⟩
      | none => .error .indexError
    | _, _, _, _ => .error .indexError
  | _, _, _ => .error .valueError

/-- The whole constructor (`__init__` lines 30-49): list the `.log` files,
collect and validate (`getStats`), then convert and sort (`sortStats`). -/
def construct (gpuruns : Bool) (path : String) (fsys : String → Option (List String))
    (listing : List String) (idx : List Nat) : Except PyErr SortedStats :=
  match getStats gpuruns path fsys (listLogFiles listing) with
  | .error e => .error e
  | .ok st => sortStats gpuruns (listLogFiles listing) st idx

/-! ## The partitioner (`subdivideomp` lines 104-150) -/

/-- The indices routed to bucket `omp`:
`[statId for statId, stat in enumerate(nthreads) if stat == omp]`. -/
def matchIdx (nthreads : List Int) (omp : Int) : List Nat :=
  (List.range nthreads.length).filter (fun i => nthreads.getD i 0 == omp)

/-- The shape the object's field group is in: flat parallel sequences, or —
after partitioning — one inner sequence per thread-count bucket.  The
source detects the shape dynamically with `isinstance(self.nthreads[0],
list)`; here it is a tagged sum. -/
inductive PState where
  | flat (s : SortedStats)
  | nested (files : List (List String)) (nprocs : List (List Int))
      (nthreads : List (List Int)) (performance : List (List ℚ))
      (ncpus : List (List Int)) (ngpus : List (List Int))
deriving DecidableEq

/-- One bucket of one field: the field values at the indices whose
`nthreads` entry equals `omp` (`field[0][statId]` lookups of lines
135-140); an out-of-range lookup raises `IndexError`. -/
def bucketOf {α : Type} (xs : List α) (nthreads : List Int) (omp : Int) : Option (List α) :=
  mapOpt (fun i => xs.get? i) (matchIdx nthreads omp)

/-- `subdivideomp` (lines 104-150) with the iteration order of
`set(self.nthreads)` as the explicit parameter `omps` (Python set order is
implementation-defined).  The guard inspects `self.nthreads[0]` — an
`IndexError` (`none`) on an empty sequence; on an already-nested state it
only prints.  With more than one distinct thread value each field is
rebuilt as one bucket per `omp`, routing record `statId` to the bucket
matching `nthreads[statId]`; the interim element 0 (the flat copy) is
deleted at the end and does not appear in the result. -/
def subdivideomp (gpuruns : Bool) (omps : List Int) : PState → Option PState
  | .nested fb pb tb perfb cb gb =>
    match tb.get? 0 with
    | none => none
    | some _ => some (.nested fb pb tb perfb cb gb)
  | .flat s =>
    match s.nthreads.get? 0 with
    | none => none
    | some _ =>
      if 1 < omps.length then
        match mapOpt (fun o => bucketOf s.files s.nthreads o) omps,
              mapOpt (fun o => bucketOf s.nprocs s.nthreads o) omps,
              mapOpt (fun o => bucketOf s.performance s.nthreads o) omps,
              mapOpt (fun o => bucketOf s.ncpus s.nthreads o) omps with
        | some fb, some pb, some perfb, some cb =>
          if gpuruns then
            match mapOpt (fun o => bucketOf s.ngpus s.nthreads o) omps with
            | some gb => some (.nested fb pb
                (omps.map (fun o => (matchIdx s.nthreads o).map (fun i => s.nthreads.getD i 0)))
                perfb cb gb)
            | none => none
          else some (.nested fb pb
            (omps.map (fun o => (matchIdx s.nthreads o).map (fun i => s.nthreads.getD i 0)))
            perfb cb [])
        | _, _, _, _ => none
      else some (.flat s)

/-- `set(self.nthreads)` (line 113) modelled as any duplicate-free list
with the same members as the flat `nthreads`; on an already-nested state
the set is never computed, so any list is valid there. -/
def validOmps : PState → List Int → Prop
  | .flat s, omps => omps.Nodup ∧ ∀ x : Int, x ∈ omps ↔ x ∈ s.nthreads
  | .nested _ _ _ _ _ _, _ => True

/-! ## The stable argsort permutation (for the stability analysis) -/

/-- Sort indices by performance value, ties broken by original position —
the order `np.argsort(perf, kind="stable")` returns. -/
def stableRel (perf : List ℚ) (a b : Nat) : Prop :=
  perf.getD a 0 < perf.getD b 0 ∨ (perf.getD a 0 = perf.getD b 0 ∧ a ≤ b)

instance stableRelDec (perf : List ℚ) : DecidableRel (stableRel perf) :=
  fun _ _ => inferInstanceAs (Decidable (_ ∨ _))

/-- The stable argsort permutation of `perf`. -/
def stableArgsort (perf : List ℚ) : List Nat :=
  (List.range perf.length).insertionSort (stableRel perf)

/-- Claim C1 as stated: for every record set and every permutation
`np.argsort` is allowed to return for it, `sortStats` keeps records with
tied performance in their original relative order (output position `p`
holds original record `idx[p]`). -/
def stableSortClaim : Prop :=
  ∀ (gpuruns : Bool) (files : List String) (st : Stats) (idx : List Nat)
    (r : SortedStats) (perfQ : List ℚ),
    mapOpt pyFloat st.performance = some perfQ →
    isArgsortOf perfQ idx →
    sortStats gpuruns files st idx = .ok r →
    ∀ p q : Nat, p < q → q < idx.length →
      perfQ.getD (idx.getD p 0) 0 = perfQ.getD (idx.getD q 0) 0 →
      idx.getD p 0 < idx.getD q 0

/-! ## Concrete fixtures used by the witnesses -/

/-- The spec's worked example directory: three log files A, B, C, each with
one OpenMP line, one MPI line and one performance line, reachable under the
path prefix `./`. -/
def egFs : String → Option (List String) := fun s =>
  if s = "./A.log" then
    some ["Using 2 OpenMP threads", "Using 4 MPI processes", "Performance: 10.5 ns/day"]
  else if s = "./B.log" then
    some ["Using 4 OpenMP threads", "Using 4 MPI processes", "Performance: 5.2 ns/day"]
  else if s = "./C.log" then
    some ["Using 2 OpenMP threads", "Using 4 MPI processes", "Performance: 20.0 ns/day"]
  else none

/-- The token state the collector produces on `egFs`. -/
def egStats : Stats :=
  ⟨["4", "4", "4"], ["2", "4", "2"], ["10.5", "5.2", "20.0"], []⟩

/-- The sorted record set the constructor produces on `egFs` (argsort of
`[10.5, 5.2, 20.0]` is `[1, 0, 2]`). -/
def egSorted : SortedStats :=
  ⟨["B.log", "A.log", "C.log"], [4, 4, 4], [4, 2, 2],
   [mkRat 52 10, mkRat 105 10, 20], [16, 8, 8], []⟩

/-- `egSorted` after partitioning by thread count with bucket order `[4, 2]`. -/
def egNested : PState :=
  .nested [["B.log"], ["A.log", "C.log"]] [[4], [4, 4]] [[4], [2, 2]]
    [[mkRat 52 10], [mkRat 105 10, 20]] [[16], [8, 8]] []

/-- A directory with one log file that reports a thread count but never a
process count or a performance line (an inconsistent input). -/
def egBadFs : String → Option (List String) := fun s =>
  if s = "./bad.log" then some ["Using 2 OpenMP threads"] else none

/-- A directory with one log file containing no recognized marker line. -/
def egPlainFs : String → Option (List String) := fun s =>
  if s = "./plain.log" then some ["hello world", "nothing to see"] else none

/-- A directory keeping one (empty) log file at the separator-joined path
`./a.log`. -/
def egDirFs : String → Option (List String) := fun s =>
  if s = "./a.log" then some [] else none

/-! ## Helper lemmas -/

theorem mapOpt_length {α β : Type} {f : α → Option β} :
    ∀ {l : List α} {ys : List β}, mapOpt f l = some ys → ys.length = l.length := by
  intro l
  induction l with
  | nil => intro ys h; simp [mapOpt] at h; simp [← h]
  | cons a as ih =>
    intro ys h
    unfold mapOpt at h
    cases hfa : f a with
    | none => rw [hfa] at h; simp at h
    | some b =>
      rw [hfa] at h
      cases hrec : mapOpt f as with
      | none => rw [hrec] at h; simp at h
      | some bs =>
        rw [hrec] at h
        simp at h
        rw [← h]
        simp [ih hrec]

theorem mapOpt_get? {α β : Type} {f : α → Option β} :
    ∀ {l : List α} {ys : List β}, mapOpt f l = some ys →
      ∀ {i : Nat} {a : α}, l.get? i = some a → ys.get? i = f a := by
  intro l
  induction l with
  | nil => intro ys _ i a ha; simp at ha
  | cons x xs ih =>
    intro ys h i a ha
    unfold mapOpt at h
    cases hfa : f x with
    | none => rw [hfa] at h; simp at h
    | some b =>
      rw [hfa] at h
      cases hrec : mapOpt f xs with
      | none => rw [hrec] at h; simp at h
      | some bs =>
        rw [hrec] at h
        have hys : ys = b :: bs := by
          have hs : some (b :: bs) = some ys := h
          exact (Option.some.inj hs).symm
        subst hys
        cases i with
        | zero =>
          have hxa : x = a := by
            have h0 : (x :: xs).get? 0 = some x := rfl
            rw [h0] at ha
            exact Option.some.inj ha
          show some b = f a
          rw [← hxa, hfa]
        | succ j =>
          have ha2 : xs.get? j = some a := ha
          show bs.get? j = f a
          exact ih hrec ha2

theorem mapOpt_eq_map {α β : Type} {f : α → Option β} {h : α → β} :
    ∀ {l : List α}, (∀ x ∈ l, f x = some (h x)) → mapOpt f l = some (l.map h) := by
  intro l
  induction l with
  | nil => intro _; rfl
  | cons x xs ih =>
    intro hx
    unfold mapOpt
    rw [hx x (List.mem_cons_self x xs), ih (fun y hy => hx y (List.mem_cons_of_mem x hy))]
    rfl

theorem get?_eq_some_getD {α : Type} {l : List α} {i : Nat} (d : α) (h : i < l.length) :
    l.get? i = some (l.getD i d) := by
  cases hx : l.get? i with
  | none => rw [List.get?_eq_none] at hx; omega
  | some a => rw [List.getD_eq_getD_get?, hx]; rfl

theorem npIndex_length {α : Type} {xs : List α} {idx : List Nat} {ys : List α}
    (h : npIndex xs idx = some ys) : ys.length = idx.length :=
  mapOpt_length h

theorem npIndex_get? {α : Type} {xs : List α} {idx : List Nat} {ys : List α}
    (h : npIndex xs idx = some ys) {p : Nat} (hp : p < idx.length) :
    ys.get? p = xs.get? (idx.getD p 0) :=
  mapOpt_get? h (get?_eq_some_getD 0 hp)

theorem npIndex_eq_map {α : Type} {xs : List α} {idx : List Nat} (d : α)
    (h : ∀ i ∈ idx, i < xs.length) :
    npIndex xs idx = some (idx.map (fun i => xs.getD i d)) :=
  mapOpt_eq_map (fun i hi => get?_eq_some_getD d (h i hi))

theorem computeNcpus_spec {a b c : List Int} (h : computeNcpus a b = some c) :
    c.length = a.length ∧ ∀ i, i < a.length → c.getD i 0 = a.getD i 0 * b.getD i 0 := by
  have hl : c.length = a.length := by
    have := mapOpt_length h
    simpa [List.length_range] using this
  refine ⟨hl, ?_⟩
  intro i hi
  have hr : (List.range a.length).get? i = some i := by
    simpa using List.get?_range hi
  have hmatch := mapOpt_get? h hr
  cases hav : a.get? i with
  | none => rw [List.get?_eq_none] at hav; omega
  | some av =>
    cases hbv : b.get? i with
    | none =>
      exfalso
      rw [hav, hbv] at hmatch
      have hnone : c.get? i = none := hmatch
      rw [List.get?_eq_none] at hnone
      omega
    | some bv =>
      rw [hav, hbv] at hmatch
      have hcv : c.get? i = some (av * bv) := hmatch
      rw [List.getD_eq_getD_get?, hcv, List.getD_eq_getD_get?, hav,
        List.getD_eq_getD_get?, hbv]
      rfl

theorem sortStats_ok_elim {g : Bool} {files : List String} {st : Stats}
    {idx : List Nat} {r : SortedStats} (h : sortStats g files st idx = .ok r) :
    ∃ nprocs0 nthreads0 perf0,
      mapOpt pyInt st.nprocs = some nprocs0 ∧
      mapOpt pyInt st.nthreads = some nthreads0 ∧
      mapOpt pyFloat st.performance = some perf0 ∧
      npIndex files idx = some r.files ∧
      npIndex nprocs0 idx = some r.nprocs ∧
      npIndex nthreads0 idx = some r.nthreads ∧
      npIndex perf0 idx = some r.performance ∧
      computeNcpus r.nprocs r.nthreads = some r.ncpus ∧
      (g = true → ∃ ngpus0, mapOpt pyInt st.ngpus = some ngpus0 ∧
        npIndex ngpus0 idx = some r.ngpus) ∧
      (g = false → r.ngpus = []) := by
  unfold sortStats at h
  split at h
  case _ nprocs0 nthreads0 perf0 h1 h2 h3 =>
    split at h
    case _ files1 nprocs1 nthreads1 perf1 h4 h5 h6 h7 =>
      split at h
      case _ ncpus1 h8 =>
        cases g with
        | true =>
          rw [if_pos rfl] at h
          split at h
          case _ ngpus0 h9 =>
            split at h
            case _ ngpus1 h10 =>
              have hr : r = ⟨files1, nprocs1, nthreads1, perf1, ncpus1, ngpus1⟩ :=
                (Except.ok.inj h).symm
              subst hr
              exact ⟨nprocs0, nthreads0, perf0, h1, h2, h3, h4, h5, h6, h7, h8,
                fun _ => ⟨ngpus0, h9, h10⟩, fun hf => absurd hf (by decide)⟩
            case _ => cases h
          case _ => cases h
        | false =>
          rw [if_neg (by decide : ¬((false : Bool) = true))] at h
          have hr : r = ⟨files1, nprocs1, nthreads1, perf1, ncpus1, []⟩ :=
            (Except.ok.inj h).symm
          subst hr
          exact ⟨nprocs0, nthreads0, perf0, h1, h2, h3, h4, h5, h6, h7, h8,
            fun ht => absurd ht (by decide), fun _ => rfl⟩
      case _ => cases h
    case _ => cases h
  case _ => cases h

/-- C2: for every log directory on which construction succeeds, the lengths
of `files`, `nprocs`, `nthreads`, `performance` and `ncpus` are all equal
after construction, and when `gpuruns` is enabled the length of `ngpus`
equals them too. -/
theorem construct_ok_lengths_eq {g : Bool} {path : String}
    {fsys : String → Option (List String)} {listing : List String}
    {idx : List Nat} {r : SortedStats}
    (h : construct g path fsys listing idx = .ok r) :
    r.files.length = r.nprocs.length ∧ r.nprocs.length = r.nthreads.length ∧
    r.nthreads.length = r.performance.length ∧ r.performance.length = r.ncpus.length ∧
    (g = true → r.ncpus.length = r.ngpus.length) := by
  unfold construct at h
  split at h
  case _ => cases h
  case _ st hst =>
    obtain ⟨np, nt, pf, _, _, _, h4, h5, h6, h7, h8, hgt, _⟩ := sortStats_ok_elim h
    have lf := npIndex_length h4
    have lp := npIndex_length h5
    have lt := npIndex_length h6
    have lq := npIndex_length h7
    have lc := (computeNcpus_spec h8).1
    refine ⟨by omega, by omega, by omega, by omega, ?_⟩
    intro hg
    obtain ⟨ng, _, h10⟩ := hgt hg
    have lg := npIndex_length h10
    omega

/-- Witness for C2 at the spec's worked example. -/
theorem construct_ok_lengths_eq_witness :
    construct false "./" egFs ["A.log", "B.log", "C.log"] [1, 0, 2] = .ok egSorted ∧
    (egSorted.files.length = egSorted.nprocs.length ∧
     egSorted.nprocs.length = egSorted.nthreads.length ∧
     egSorted.nthreads.length = egSorted.performance.length ∧
     egSorted.performance.length = egSorted.ncpus.length ∧
     (false = true → egSorted.ncpus.length = egSorted.ngpus.length)) :=
  ⟨by decide,
    @construct_ok_lengths_eq false "./" egFs ["A.log", "B.log", "C.log"] [1, 0, 2]
      egSorted (by decide)⟩

/-- C6: after `sortStats`, `ncpus[i] = nprocs[i] * nthreads[i]` holds for
every index `i`. -/
theorem sortStats_ncpus_eq_mul {g : Bool} {files : List String} {st : Stats}
    {idx : List Nat} {r : SortedStats}
    (h : sortStats g files st idx = .ok r) :
    ∀ i, i < r.ncpus.length →
      r.ncpus.getD i 0 = r.nprocs.getD i 0 * r.nthreads.getD i 0 := by
  obtain ⟨np, nt, pf, _, _, _, _, _, _, _, h8, _, _⟩ := sortStats_ok_elim h
  obtain ⟨hlen, hmul⟩ := computeNcpus_spec h8
  intro i hi
  exact hmul i (by omega)

/-- Witness for C6 at the spec's worked example. -/
theorem sortStats_ncpus_eq_mul_witness :
    sortStats false ["A.log", "B.log", "C.log"] egStats [1, 0, 2] = .ok egSorted ∧
    ∀ i, i < egSorted.ncpus.length →
      egSorted.ncpus.getD i 0 = egSorted.nprocs.getD i 0 * egSorted.nthreads.getD i 0 :=
  ⟨by decide,
    @sortStats_ncpus_eq_mul false ["A.log", "B.log", "C.log"] egStats [1, 0, 2]
      egSorted (by decide)⟩

/-- C7: after `sortStats` the performance sequence is non-decreasing, and
`files`, `nprocs`, `nthreads`, `performance` (and `ngpus` when enabled) are
all permuted by the same index list in lockstep: output position `p` holds
the data of original record `idx[p]`. -/
theorem sortStats_sorted_lockstep {g : Bool} {files : List String} {st : Stats}
    {idx : List Nat} {r : SortedStats} {nprocs0 nthreads0 ngpus0 : List Int} {perf0 : List ℚ}
    (hp : mapOpt pyInt st.nprocs = some nprocs0)
    (ht : mapOpt pyInt st.nthreads = some nthreads0)
    (hq : mapOpt pyFloat st.performance = some perf0)
    (hgp : g = true → mapOpt pyInt st.ngpus = some ngpus0)
    (hsort : isArgsortOf perf0 idx)
    (h : sortStats g files st idx = .ok r) :
    List.Sorted (· ≤ ·) r.performance ∧
    ∀ p, p < idx.length →
      r.files.get? p = files.get? (idx.getD p 0) ∧
      r.nprocs.get? p = nprocs0.get? (idx.getD p 0) ∧
      r.nthreads.get? p = nthreads0.get? (idx.getD p 0) ∧
      r.performance.get? p = perf0.get? (idx.getD p 0) ∧
      (g = true → r.ngpus.get? p = ngpus0.get? (idx.getD p 0)) := by
  obtain ⟨np, nt, pf, h1, h2, h3, h4, h5, h6, h7, _, hgt, _⟩ := sortStats_ok_elim h
  have e1 : np = nprocs0 := Option.some.inj (h1.symm.trans hp)
  have e2 : nt = nthreads0 := Option.some.inj (h2.symm.trans ht)
  have e3 : pf = perf0 := Option.some.inj (h3.symm.trans hq)
  rw [e1] at h5
  rw [e2] at h6
  rw [e3] at h7
  have hmem : ∀ i ∈ idx, i < perf0.length := by
    intro i hi
    exact List.mem_range.mp (hsort.1.mem_iff.mp hi)
  have hperfmap : r.performance = idx.map (fun i => perf0.getD i 0) :=
    Option.some.inj (h7.symm.trans (npIndex_eq_map (0 : ℚ) hmem))
  constructor
  · rw [hperfmap]
    exact hsort.2
  · intro p hp2
    refine ⟨npIndex_get? h4 hp2, npIndex_get? h5 hp2, npIndex_get? h6 hp2,
      npIndex_get? h7 hp2, ?_⟩
    intro hg
    obtain ⟨ng, h9, h10⟩ := hgt hg
    have e4 : ng = ngpus0 := Option.some.inj (h9.symm.trans (hgp hg))
    rw [e4] at h10
    exact npIndex_get? h10 hp2

/-- Witness for C7 at the spec's worked example. -/
theorem sortStats_sorted_lockstep_witness :
    isArgsortOf [mkRat 105 10, mkRat 52 10, 20] [1, 0, 2] ∧
    sortStats false ["A.log", "B.log", "C.log"] egStats [1, 0, 2] = .ok egSorted ∧
    (List.Sorted (· ≤ ·) egSorted.performance ∧
     ∀ p, p < ([1, 0, 2] : List Nat).length →
       egSorted.files.get? p =
         (["A.log", "B.log", "C.log"] : List String).get? (([1, 0, 2] : List Nat).getD p 0) ∧
       egSorted.nprocs.get? p = ([4, 4, 4] : List Int).get? (([1, 0, 2] : List Nat).getD p 0) ∧
       egSorted.nthreads.get? p = ([2, 4, 2] : List Int).get? (([1, 0, 2] : List Nat).getD p 0) ∧
       egSorted.performance.get? p =
         ([mkRat 105 10, mkRat 52 10, 20] : List ℚ).get? (([1, 0, 2] : List Nat).getD p 0) ∧
       (false = true → egSorted.ngpus.get? p =
         ([] : List Int).get? (([1, 0, 2] : List Nat).getD p 0))) :=
  ⟨⟨by decide, by decide⟩, by decide,
    @sortStats_sorted_lockstep false ["A.log", "B.log", "C.log"] egStats [1, 0, 2]
      egSorted [4, 4, 4] [2, 4, 2] [] [mkRat 105 10, mkRat 52 10, 20]
      (by decide) (by decide) (by decide) (fun hf => absurd hf (by decide))
      ⟨by decide, by decide⟩ (by decide)⟩

/-- C3: given that collection succeeded with state `st`, the constructor
aborts with the consistency assertion error exactly when the counts of
extracted nprocs, nthreads and performance entries disagree, and the length
of the ngpus sequence plays no role in the check. -/
theorem getStats_assert_exactly {g : Bool} {path : String}
    {fsys : String → Option (List String)} {files : List String} {st : Stats}
    (hc : collectFiles g path fsys ⟨[], [], [], []⟩ files = .ok st) :
    (getStats g path fsys files = .error .assertionError ↔ ¬ consistentLen st) ∧
    (getStats g path fsys files = .ok st ↔ consistentLen st) ∧
    (∀ gl : List String, consistentLen { st with ngpus := gl } ↔ consistentLen st) := by
  unfold getStats
  rw [hc]
  refine ⟨?_, ?_, fun gl => Iff.rfl⟩
  · by_cases hcl : consistentLen st
    · simp [hcl]
    · simp [hcl]
  · by_cases hcl : consistentLen st
    · simp [hcl]
    · simp [hcl]

/-- Witness for C3: one log file with a thread count but no process count
and no performance line trips the assertion. -/
theorem getStats_assert_exactly_witness :
    collectFiles false "./" egBadFs ⟨[], [], [], []⟩ ["bad.log"] = .ok ⟨[], ["2"], [], []⟩ ∧
    ((getStats false "./" egBadFs ["bad.log"] = .error .assertionError ↔
        ¬ consistentLen ⟨[], ["2"], [], []⟩) ∧
     (getStats false "./" egBadFs ["bad.log"] = .ok ⟨[], ["2"], [], []⟩ ↔
        consistentLen ⟨[], ["2"], [], []⟩) ∧
     (∀ gl : List String, consistentLen ⟨[], ["2"], [], gl⟩ ↔
        consistentLen ⟨[], ["2"], [], []⟩)) :=
  ⟨by decide,
    @getStats_assert_exactly false "./" egBadFs ["bad.log"] ⟨[], ["2"], [], []⟩ (by decide)⟩

theorem processLine_no_marker {g : Bool} {st : Stats} {line : String}
    (h : recognizedMarker line = false) : processLine g st line = .ok st := by
  unfold recognizedMarker at h
  simp only [Bool.or_eq_false_iff] at h
  obtain ⟨⟨⟨⟨h1, h2⟩, h3⟩, h4⟩, h5⟩ := h
  simp [processLine, h1, h2, h3, h4]

theorem collectLines_no_marker {g : Bool} :
    ∀ {ls : List String} {st : Stats},
      (∀ line ∈ ls, recognizedMarker line = false) →
      collectLines g st ls = .ok st := by
  intro ls
  induction ls with
  | nil => intro st _; rfl
  | cons l ls ih =>
    intro st hl
    unfold collectLines
    rw [processLine_no_marker (hl l (List.mem_cons_self l ls))]
    exact ih (fun x hx => hl x (List.mem_cons_of_mem l hx))

theorem collectFiles_no_marker {g : Bool} {path : String}
    {fsys : String → Option (List String)} :
    ∀ {files : List String} {st : Stats},
      (∀ f ∈ files, ∃ ls, fsys (openName path f) = some ls ∧
        ∀ line ∈ ls, recognizedMarker line = false) →
      collectFiles g path fsys st files = .ok st := by
  intro files
  induction files with
  | nil => intro st _; rfl
  | cons f fs ih =>
    intro st hf
    obtain ⟨ls, hls, hlines⟩ := hf f (List.mem_cons_self f fs)
    unfold collectFiles
    rw [hls]
    show (match collectLines g st ls with
        | Except.ok st2 => collectFiles g path fsys st2 fs
        | Except.error e => Except.error e) = Except.ok st
    rw [collectLines_no_marker hlines]
    exact ih (fun x hx => hf x (List.mem_cons_of_mem f hx))

/-- C8: on a directory whose matching files contain no recognized marker
line, construction succeeds without any error and every field sequence of
the result — files, nprocs, nthreads, performance, ncpus (and ngpus) — is
empty. -/
theorem construct_no_marker_empty {g : Bool} {path : String}
    {fsys : String → Option (List String)} {listing : List String}
    (hread : ∀ f ∈ listLogFiles listing, ∃ ls, fsys (openName path f) = some ls ∧
      ∀ line ∈ ls, recognizedMarker line = false) :
    construct g path fsys listing [] = .ok ⟨[], [], [], [], [], []⟩ := by
  have h1 : getStats g path fsys (listLogFiles listing) = .ok ⟨[], [], [], []⟩ := by
    unfold getStats
    rw [collectFiles_no_marker hread]
    rfl
  unfold construct
  rw [h1]
  cases g <;> rfl

/-- Witness for C8: a directory holding one marker-free log file and one
non-log file. -/
theorem construct_no_marker_empty_witness :
    (∀ f ∈ listLogFiles ["plain.log", "readme.txt"], ∃ ls,
        egPlainFs (openName "./" f) = some ls ∧
        ∀ line ∈ ls, recognizedMarker line = false) ∧
    construct false "./" egPlainFs ["plain.log", "readme.txt"] [] =
      .ok ⟨[], [], [], [], [], []⟩ := by
  have hyp : ∀ f ∈ listLogFiles ["plain.log", "readme.txt"], ∃ ls,
      egPlainFs (openName "./" f) = some ls ∧
      ∀ line ∈ ls, recognizedMarker line = false := by
    intro f hf
    have hm : f ∈ ["plain.log"] := hf
    have hfe : f = "plain.log" := by simpa using hm
    subst hfe
    exact ⟨["hello world", "nothing to see"], by decide, by decide⟩
  exact ⟨hyp, @construct_no_marker_empty false "./" egPlainFs ["plain.log", "readme.txt"] hyp⟩

theorem appended_ne_joined {path f n : String} (hf : f.data.head? ≠ some '/') :
    path ++ f ≠ path ++ "/" ++ n := by
  intro he
  have hd := congrArg String.data he
  rw [String.data_append, String.data_append, String.data_append] at hd
  rw [List.append_assoc] at hd
  have h2 : f.data = "/".data ++ n.data := List.append_cancel_left hd
  have h3 : f.data = '/' :: n.data := h2
  rw [h3] at hf
  exact hf rfl

/-- C9: the collector opens each log file at the plain concatenation of
path and file name; that name differs from every separator-joined path
inside the directory, so when the directory's files live at
`path ++ "/" ++ name` (the real location for a path without a trailing
separator, e.g. the default `"."`), every matching entry yields a fatal
I/O error during construction. -/
theorem getStats_concat_path_io_error {g : Bool} {path : String}
    {fsys : String → Option (List String)} {f0 : String} {rest : List String}
    (hhead : f0.data.head? ≠ some '/')
    (hdom : ∀ s ls, fsys s = some ls → ∃ n : String, s = path ++ "/" ++ n) :
    openName path f0 = path ++ f0 ∧
    (∀ n : String, openName path f0 ≠ path ++ "/" ++ n) ∧
    getStats g path fsys (f0 :: rest) = .error (.ioError (openName path f0)) := by
  have hne : ∀ n : String, openName path f0 ≠ path ++ "/" ++ n :=
    fun n => appended_ne_joined hhead
  have hfs : fsys (openName path f0) = none := by
    cases hx : fsys (openName path f0) with
    | none => rfl
    | some ls =>
      obtain ⟨n, hn⟩ := hdom _ _ hx
      exact absurd hn (hne n)
  refine ⟨rfl, hne, ?_⟩
  unfold getStats collectFiles
  rw [hfs]

/-- Witness for C9: with the default path `"."` the collector opens
`.a.log` instead of the directory entry `./a.log` and construction fails
with an I/O error. -/
theorem getStats_concat_path_io_error_witness :
    ("a.log".data.head? ≠ some '/') ∧
    openName "." "a.log" = "." ++ "a.log" ∧
    (∀ n : String, openName "." "a.log" ≠ "." ++ "/" ++ n) ∧
    getStats false "." egDirFs ["a.log"] = .error (.ioError (openName "." "a.log")) := by
  have hhead : ("a.log").data.head? ≠ some '/' := by decide
  have hdom : ∀ s ls, egDirFs s = some ls → ∃ n : String, s = "." ++ "/" ++ n := by
    intro s ls h
    unfold egDirFs at h
    by_cases hs : s = "./a.log"
    · exact ⟨"a.log", by rw [hs]; rfl⟩
    · rw [if_neg hs] at h; cases h
  have hmain := @getStats_concat_path_io_error false "." egDirFs "a.log" [] hhead hdom
  exact ⟨hhead, hmain⟩

/-- C10: calling `subdivideomp` on an instance whose record set is empty
(`nthreads = []`) raises an index-out-of-range error, because the
already-partitioned guard unconditionally inspects `nthreads[0]`. -/
theorem subdivideomp_empty_none {g : Bool} {omps : List Int} {s : SortedStats}
    (h : s.nthreads = []) : subdivideomp g omps (.flat s) = none := by
  simp only [subdivideomp, h]
  rfl

/-- Witness for C10 on the empty record set. -/
theorem subdivideomp_empty_none_witness :
    (SortedStats.mk [] [] [] [] [] []).nthreads = [] ∧
    subdivideomp false [] (.flat ⟨[], [], [], [], [], []⟩) = none :=
  ⟨rfl, @subdivideomp_empty_none false [] ⟨[], [], [], [], [], []⟩ rfl⟩

theorem sum_ite_zero {x : Int} :
    ∀ {os : List Int}, x ∉ os →
      (os.map (fun o => if x = o then (1 : Nat) else 0)).sum = 0 := by
  intro os
  induction os with
  | nil => intro _; rfl
  | cons o os ih =>
    intro hx
    have hxo : ¬(x = o) := fun he => hx (he ▸ List.mem_cons_self o os)
    have hmem : x ∉ os := fun hm => hx (List.mem_cons_of_mem o hm)
    simp only [List.map_cons, List.sum_cons, ih hmem, if_neg hxo]

theorem sum_ite_one {x : Int} :
    ∀ {os : List Int}, os.Nodup → x ∈ os →
      (os.map (fun o => if x = o then (1 : Nat) else 0)).sum = 1 := by
  intro os
  induction os with
  | nil => intro _ h; cases h
  | cons o os ih =>
    intro hnd hx
    simp only [List.map_cons, List.sum_cons]
    by_cases hxo : x = o
    · rw [if_pos hxo]
      have hnotin : x ∉ os := by
        rw [hxo]
        exact (List.nodup_cons.mp hnd).1
      rw [sum_ite_zero hnotin]
    · rw [if_neg hxo]
      have hx2 : x ∈ os := by
        cases List.mem_cons.mp hx with
        | inl h => exact absurd h hxo
        | inr h => exact h
      rw [ih (List.nodup_cons.mp hnd).2 hx2]

theorem sum_map_add_split {α : Type} (l : List α) (f f2 : α → Nat) :
    (l.map (fun a => f a + f2 a)).sum = (l.map f).sum + (l.map f2).sum := by
  induction l with
  | nil => rfl
  | cons a l ih =>
    simp only [List.map_cons, List.sum_cons, ih]
    omega

theorem sum_count_partition {omps : List Int} (hnd : omps.Nodup) :
    ∀ {t : List Int}, (∀ y ∈ t, y ∈ omps) →
      (omps.map (fun o => (t.filter (fun x => x == o)).length)).sum = t.length := by
  intro t
  induction t with
  | nil => intro _; simp
  | cons y t ih =>
    intro hmem
    have hy : y ∈ omps := hmem y (List.mem_cons_self y t)
    have hrest : ∀ z ∈ t, z ∈ omps := fun z hz => hmem z (List.mem_cons_of_mem y hz)
    have hsplit : ∀ o ∈ omps, ((y :: t).filter (fun x => x == o)).length
        = (if y = o then (1 : Nat) else 0) + (t.filter (fun x => x == o)).length := by
      intro o _
      rw [List.filter_cons]
      by_cases hyo : y = o
      · simp [hyo, Nat.add_comm]
      · simp [hyo]
    rw [List.map_congr_left hsplit, sum_map_add_split, sum_ite_one hnd hy, ih hrest]
    simp [Nat.add_comm]

theorem mem_matchIdx {t : List Int} {o : Int} {i : Nat} :
    i ∈ matchIdx t o ↔ i < t.length ∧ t.getD i 0 = o := by
  unfold matchIdx
  rw [List.mem_filter, List.mem_range]
  simp

theorem filter_eq_matchIdx_map {o : Int} :
    ∀ {t : List Int}, t.filter (fun x => x == o) = (matchIdx t o).map (fun i => t.getD i 0) := by
  intro t
  induction t with
  | nil => rfl
  | cons y t ih =>
    have hcomp : ((fun i => (y :: t).getD i 0 == o) ∘ Nat.succ) = (fun i => t.getD i 0 == o) := by
      funext i
      simp
    have hcomp2 : ((fun i => (y :: t).getD i 0) ∘ Nat.succ) = (fun i => t.getD i 0) := by
      funext i
      simp
    unfold matchIdx
    rw [List.length_cons, List.range_succ_eq_map]
    simp only [List.filter_cons, List.filter_map, hcomp, List.getD_cons_zero]
    unfold matchIdx at ih
    by_cases hyo : y = o
    · have hbeq : (y == o) = true := by simp [hyo]
      simp only [if_pos hbeq, List.map_cons, List.getD_cons_zero, List.map_map, hcomp2]
      rw [ih]
    · have hbeq : ¬((y == o) = true) := by simp [hyo]
      simp only [if_neg hbeq, List.map_map, hcomp2]
      rw [ih]

theorem sum_matchIdx_length {omps : List Int} {t : List Int}
    (hnd : omps.Nodup) (hmem : ∀ y ∈ t, y ∈ omps) :
    (omps.map (fun o => ((matchIdx t o).map (fun i => t.getD i 0)).length)).sum = t.length := by
  have heach : ∀ o ∈ omps, ((matchIdx t o).map (fun i => t.getD i 0)).length
      = (t.filter (fun x => x == o)).length := by
    intro o _
    rw [← filter_eq_matchIdx_map]
  rw [List.map_congr_left heach]
  exact sum_count_partition hnd hmem

theorem bucketOf_eq_map {α : Type} {xs : List α} {t : List Int} {o : Int} (d : α)
    (hlen : t.length ≤ xs.length) :
    bucketOf xs t o = some ((matchIdx t o).map (fun i => xs.getD i d)) :=
  npIndex_eq_map d (fun i hi => lt_of_lt_of_le (mem_matchIdx.mp hi).1 hlen)

theorem getD_map_eq {α β : Type} {l : List α} {f : α → β} {j : Nat} (dα : α) (dβ : β)
    (hj : j < l.length) : (l.map f).getD j dβ = f (l.getD j dα) := by
  have h1 : (l.map f).get? j = some (f (l.getD j dα)) := by
    rw [List.get?_map, get?_eq_some_getD dα hj]
    rfl
  conv_lhs => rw [List.getD_eq_getD_get?]
  rw [h1]
  rfl

theorem subdivideomp_flat_eq {g : Bool} {omps : List Int} {s : SortedStats}
    (hf : s.files.length = s.nthreads.length) (hp : s.nprocs.length = s.nthreads.length)
    (hq : s.performance.length = s.nthreads.length) (hc : s.ncpus.length = s.nthreads.length)
    (hg : g = true → s.ngpus.length = s.nthreads.length)
    (hne : s.nthreads ≠ []) (h2 : 1 < omps.length) :
    subdivideomp g omps (.flat s) = some (.nested
      (omps.map (fun o => (matchIdx s.nthreads o).map (fun i => s.files.getD i "")))
      (omps.map (fun o => (matchIdx s.nthreads o).map (fun i => s.nprocs.getD i 0)))
      (omps.map (fun o => (matchIdx s.nthreads o).map (fun i => s.nthreads.getD i 0)))
      (omps.map (fun o => (matchIdx s.nthreads o).map (fun i => s.performance.getD i 0)))
      (omps.map (fun o => (matchIdx s.nthreads o).map (fun i => s.ncpus.getD i 0)))
      (if g then omps.map (fun o => (matchIdx s.nthreads o).map (fun i => s.ngpus.getD i 0))
       else [])) := by
  obtain ⟨v, hv⟩ : ∃ v, s.nthreads.get? 0 = some v := by
    cases ht : s.nthreads with
    | nil => exact absurd ht hne
    | cons a l => exact ⟨a, rfl⟩
  have hfb : mapOpt (fun o => bucketOf s.files s.nthreads o) omps
      = some (omps.map (fun o => (matchIdx s.nthreads o).map (fun i => s.files.getD i ""))) :=
    mapOpt_eq_map (fun o _ => bucketOf_eq_map "" hf.ge)
  have hpb : mapOpt (fun o => bucketOf s.nprocs s.nthreads o) omps
      = some (omps.map (fun o => (matchIdx s.nthreads o).map (fun i => s.nprocs.getD i 0))) :=
    mapOpt_eq_map (fun o _ => bucketOf_eq_map 0 hp.ge)
  have hqb : mapOpt (fun o => bucketOf s.performance s.nthreads o) omps
      = some (omps.map (fun o => (matchIdx s.nthreads o).map (fun i => s.performance.getD i 0))) :=
    mapOpt_eq_map (fun o _ => bucketOf_eq_map 0 hq.ge)
  have hcb : mapOpt (fun o => bucketOf s.ncpus s.nthreads o) omps
      = some (omps.map (fun o => (matchIdx s.nthreads o).map (fun i => s.ncpus.getD i 0))) :=
    mapOpt_eq_map (fun o _ => bucketOf_eq_map 0 hc.ge)
  cases g with
  | false =>
    simp only [subdivideomp, hv, hfb, hpb, hqb, hcb, if_pos h2]
    rfl
  | true =>
    have hgb : mapOpt (fun o => bucketOf s.ngpus s.nthreads o) omps
        = some (omps.map (fun o => (matchIdx s.nthreads o).map (fun i => s.ngpus.getD i 0))) :=
      mapOpt_eq_map (fun o _ => bucketOf_eq_map 0 (hg rfl).ge)
    simp only [subdivideomp, hv, hfb, hpb, hqb, hcb, hgb, if_pos h2]
    rfl

/-- C4: on a flat record set with more than one distinct thread value,
`subdivideomp` produces one bucket per distinct `nthreads` value in every
field, the bucket sizes sum to the original flat record count, every
bucket's `nthreads` values all equal that bucket's thread value, and within
each bucket every field holds exactly the original values at the positions
whose `nthreads` entry matches that value — positional cross-field
correspondence. -/
theorem subdivideomp_partition_correct {g : Bool} {omps : List Int} {s : SortedStats}
    (hf : s.files.length = s.nthreads.length) (hp : s.nprocs.length = s.nthreads.length)
    (hq : s.performance.length = s.nthreads.length) (hc : s.ncpus.length = s.nthreads.length)
    (hgl : g = true → s.ngpus.length = s.nthreads.length)
    (hnd : omps.Nodup) (hmem : ∀ x : Int, x ∈ omps ↔ x ∈ s.nthreads)
    (h2 : 1 < omps.length) :
    ∃ fb pb tb perfb cb gb,
      subdivideomp g omps (PState.flat s) = some (PState.nested fb pb tb perfb cb gb) ∧
      fb.length = omps.length ∧ pb.length = omps.length ∧ tb.length = omps.length ∧
      perfb.length = omps.length ∧ cb.length = omps.length ∧
      (g = true → gb.length = omps.length) ∧
      (tb.map List.length).sum = s.nthreads.length ∧
      (∀ j, j < omps.length → ∀ x ∈ tb.getD j [], x = omps.getD j 0) ∧
      (∀ j, j < omps.length →
        fb.getD j [] = (matchIdx s.nthreads (omps.getD j 0)).map (fun i => s.files.getD i "") ∧
        pb.getD j [] = (matchIdx s.nthreads (omps.getD j 0)).map (fun i => s.nprocs.getD i 0) ∧
        tb.getD j [] = (matchIdx s.nthreads (omps.getD j 0)).map (fun i => s.nthreads.getD i 0) ∧
        perfb.getD j [] = (matchIdx s.nthreads (omps.getD j 0)).map (fun i => s.performance.getD i 0) ∧
        cb.getD j [] = (matchIdx s.nthreads (omps.getD j 0)).map (fun i => s.ncpus.getD i 0) ∧
        (g = true → gb.getD j [] =
          (matchIdx s.nthreads (omps.getD j 0)).map (fun i => s.ngpus.getD i 0))) := by
  have hne : s.nthreads ≠ [] := by
    cases homps : omps with
    | nil => rw [homps] at h2; simp at h2
    | cons o os =>
      intro h0
      have ho : o ∈ omps := by rw [homps]; exact List.mem_cons_self o os
      have hmemo := (hmem o).mp ho
      rw [h0] at hmemo
      cases hmemo
  refine ⟨_, _, _, _, _, _, subdivideomp_flat_eq hf hp hq hc hgl hne h2,
    by simp, by simp, by simp, by simp, by simp, ?_, ?_, ?_, ?_⟩
  · intro hgt
    rw [if_pos hgt]
    simp
  · rw [List.map_map]
    exact sum_matchIdx_length hnd (fun y hy => (hmem y).mpr hy)
  · intro j hj x hx
    rw [getD_map_eq (0 : Int) ([] : List Int) hj] at hx
    obtain ⟨i, hi, hxe⟩ := List.mem_map.mp hx
    rw [← hxe]
    exact (mem_matchIdx.mp hi).2
  · intro j hj
    refine ⟨getD_map_eq (0 : Int) ([] : List String) hj,
      getD_map_eq (0 : Int) ([] : List Int) hj,
      getD_map_eq (0 : Int) ([] : List Int) hj,
      getD_map_eq (0 : Int) ([] : List ℚ) hj,
      getD_map_eq (0 : Int) ([] : List Int) hj, ?_⟩
    intro hgt
    rw [if_pos hgt]
    exact getD_map_eq (0 : Int) ([] : List Int) hj

/-- Witness for C4 at the spec's worked example (buckets `[4, 2]`). -/
theorem subdivideomp_partition_correct_witness :
    ∃ fb pb tb perfb cb gb,
      subdivideomp false [4, 2] (PState.flat egSorted) =
        some (PState.nested fb pb tb perfb cb gb) ∧
      fb.length = ([4, 2] : List Int).length ∧ pb.length = ([4, 2] : List Int).length ∧
      tb.length = ([4, 2] : List Int).length ∧ perfb.length = ([4, 2] : List Int).length ∧
      cb.length = ([4, 2] : List Int).length ∧
      (false = true → gb.length = ([4, 2] : List Int).length) ∧
      (tb.map List.length).sum = egSorted.nthreads.length ∧
      (∀ j, j < ([4, 2] : List Int).length →
        ∀ x ∈ tb.getD j [], x = ([4, 2] : List Int).getD j 0) ∧
      (∀ j, j < ([4, 2] : List Int).length →
        fb.getD j [] = (matchIdx egSorted.nthreads (([4, 2] : List Int).getD j 0)).map
          (fun i => egSorted.files.getD i "") ∧
        pb.getD j [] = (matchIdx egSorted.nthreads (([4, 2] : List Int).getD j 0)).map
          (fun i => egSorted.nprocs.getD i 0) ∧
        tb.getD j [] = (matchIdx egSorted.nthreads (([4, 2] : List Int).getD j 0)).map
          (fun i => egSorted.nthreads.getD i 0) ∧
        perfb.getD j [] = (matchIdx egSorted.nthreads (([4, 2] : List Int).getD j 0)).map
          (fun i => egSorted.performance.getD i 0) ∧
        cb.getD j [] = (matchIdx egSorted.nthreads (([4, 2] : List Int).getD j 0)).map
          (fun i => egSorted.ncpus.getD i 0) ∧
        (false = true → gb.getD j [] =
          (matchIdx egSorted.nthreads (([4, 2] : List Int).getD j 0)).map
            (fun i => egSorted.ngpus.getD i 0))) :=
  @subdivideomp_partition_correct false [4, 2] egSorted rfl rfl rfl rfl
    (fun h => absurd h (by decide)) (by decide)
    (fun x => by constructor <;> intro hx <;> simp [egSorted] at hx ⊢ <;> tauto)
    (by decide)

/-- C5: `subdivideomp` is idempotent — whenever one call succeeds (in
particular on a non-empty already-partitioned state, where only the notice
is printed), a second call with any valid bucket order returns the same
state unchanged, so calling it twice yields the same nested structure as
calling it once. -/
theorem subdivideomp_idempotent {g : Bool} {omps omps2 : List Int} {s s2 : PState}
    (h1 : validOmps s omps) (h2 : validOmps s2 omps2)
    (hs : subdivideomp g omps s = some s2) :
    subdivideomp g omps2 s2 = some s2 := by
  cases s with
  | nested fb pb tb perfb cb gb =>
    cases ht : tb.get? 0 with
    | none =>
      simp only [subdivideomp, ht] at hs
      exact Option.noConfusion hs
    | some w =>
      simp only [subdivideomp, ht] at hs
      have he : s2 = .nested fb pb tb perfb cb gb := (Option.some.inj hs).symm
      subst he
      simp only [subdivideomp, ht]
  | flat s0 =>
    cases ht : s0.nthreads.get? 0 with
    | none =>
      simp only [subdivideomp, ht] at hs
      exact Option.noConfusion hs
    | some v =>
      simp only [subdivideomp, ht] at hs
      by_cases hlen : 1 < omps.length
      · rw [if_pos hlen] at hs
        have htb0 : (omps.map (fun o =>
            (matchIdx s0.nthreads o).map (fun i => s0.nthreads.getD i 0))).get? 0
            = some ((matchIdx s0.nthreads (omps.getD 0 0)).map
                (fun i => s0.nthreads.getD i 0)) := by
          rw [List.get?_map, get?_eq_some_getD 0 (by omega)]
          rfl
        split at hs
        next fb pb perfb cb hfb hpb hqb hcb =>
          cases g with
          | false =>
            rw [if_neg (by decide : ¬((false : Bool) = true))] at hs
            have he : s2 = .nested fb pb
                (omps.map (fun o => (matchIdx s0.nthreads o).map (fun i => s0.nthreads.getD i 0)))
                perfb cb [] := (Option.some.inj hs).symm
            subst he
            simp only [subdivideomp, htb0]
          | true =>
            rw [if_pos rfl] at hs
            split at hs
            next gb hgb =>
              have he : s2 = .nested fb pb
                  (omps.map (fun o => (matchIdx s0.nthreads o).map (fun i => s0.nthreads.getD i 0)))
                  perfb cb gb := (Option.some.inj hs).symm
              subst he
              simp only [subdivideomp, htb0]
            next => exact Option.noConfusion hs
        next => exact Option.noConfusion hs
      · rw [if_neg hlen] at hs
        have he : s2 = .flat s0 := (Option.some.inj hs).symm
        subst he
        obtain ⟨hnd1, hm1⟩ := h1
        obtain ⟨hnd2, hm2⟩ := h2
        have hperm : List.Perm omps omps2 :=
          (List.perm_ext_iff_of_nodup hnd1 hnd2).mpr (fun a => (hm1 a).trans ((hm2 a).symm))
        have hlen2 : ¬ 1 < omps2.length := by
          rw [← hperm.length_eq]
          exact hlen
        simp only [subdivideomp, ht]
        rw [if_neg hlen2]

/-- Witness for C5 at the spec's worked example: the first call partitions,
the second leaves the nested state unchanged. -/
theorem subdivideomp_idempotent_witness :
    validOmps (PState.flat egSorted) [4, 2] ∧
    subdivideomp false [4, 2] (PState.flat egSorted) = some egNested ∧
    subdivideomp false [4, 2] egNested = some egNested := by
  have hv1 : validOmps (PState.flat egSorted) [4, 2] :=
    ⟨by decide, fun x => by constructor <;> intro hx <;> simp [egSorted] at hx ⊢ <;> tauto⟩
  have hfirst : subdivideomp false [4, 2] (PState.flat egSorted) = some egNested := by decide
  exact ⟨hv1, hfirst,
    @subdivideomp_idempotent false [4, 2] [4, 2] (PState.flat egSorted) egNested
      hv1 trivial hfirst⟩

theorem stableArgsort_sorted (perf : List ℚ) :
    List.Sorted (stableRel perf) (stableArgsort perf) := by
  haveI : IsTotal Nat (stableRel perf) := ⟨by
    intro a b
    rcases lt_trichotomy (perf.getD a 0) (perf.getD b 0) with hlt | heq | hgt
    · exact Or.inl (Or.inl hlt)
    · rcases Nat.le_total a b with hab | hba
      · exact Or.inl (Or.inr ⟨heq, hab⟩)
      · exact Or.inr (Or.inr ⟨heq.symm, hba⟩)
    · exact Or.inr (Or.inl hgt)⟩
  haveI : IsTrans Nat (stableRel perf) := ⟨by
    intro a b c hab hbc
    rcases hab with h1 | ⟨e1, l1⟩
    · rcases hbc with h2 | ⟨e2, _⟩
      · exact Or.inl (h1.trans h2)
      · exact Or.inl (e2 ▸ h1)
    · rcases hbc with h2 | ⟨e2, l2⟩
      · exact Or.inl (e1 ▸ h2)
      · exact Or.inr ⟨e1.trans e2, l1.trans l2⟩⟩
  exact List.sorted_insertionSort _ _

theorem stableArgsort_perm (perf : List ℚ) :
    List.Perm (stableArgsort perf) (List.range perf.length) :=
  List.perm_insertionSort _ _

theorem stableArgsort_isArgsortOf (perf : List ℚ) :
    isArgsortOf perf (stableArgsort perf) := by
  refine ⟨stableArgsort_perm perf, ?_⟩
  exact List.Pairwise.map _
    (fun a b hab => hab.elim le_of_lt (fun hand => le_of_eq hand.1))
    (stableArgsort_sorted perf)

theorem stableArgsort_stable (perf : List ℚ) :
    ∀ p q : Nat, p < q → q < (stableArgsort perf).length →
      perf.getD ((stableArgsort perf).getD p 0) 0
        = perf.getD ((stableArgsort perf).getD q 0) 0 →
      (stableArgsort perf).getD p 0 < (stableArgsort perf).getD q 0 := by
  intro p q hpq hq heq
  have hp : p < (stableArgsort perf).length := lt_trans hpq hq
  have hrel := List.pairwise_iff_get.mp (stableArgsort_sorted perf) ⟨p, hp⟩ ⟨q, hq⟩ hpq
  have hgp : (stableArgsort perf).getD p 0 = (stableArgsort perf).get ⟨p, hp⟩ := by
    rw [List.getD_eq_getD_get?, List.get?_eq_get hp]
    rfl
  have hgq : (stableArgsort perf).getD q 0 = (stableArgsort perf).get ⟨q, hq⟩ := by
    rw [List.getD_eq_getD_get?, List.get?_eq_get hq]
    rfl
  have hnd : (stableArgsort perf).Nodup :=
    (stableArgsort_perm perf).nodup_iff.mpr (List.nodup_range _)
  have hne : (stableArgsort perf).get ⟨p, hp⟩ ≠ (stableArgsort perf).get ⟨q, hq⟩ := by
    intro he
    have hfin := (List.Nodup.get_inj_iff hnd).mp he
    have : p = q := congrArg Fin.val hfin
    omega
  rw [hgp, hgq] at heq ⊢
  rcases hrel with hlt | hand
  · exact absurd heq (ne_of_lt hlt)
  · exact lt_of_le_of_ne hand.2 hne

/-- C1 (counterexample): the stability claim is false as stated — the
contract of `np.argsort` (any kind, in particular the default quicksort)
admits the permutation `[1, 0]` for the tied performance list
`["1.0", "1.0"]`, and `sortStats` applied with it swaps the two
equal-performance records. -/
theorem stableSortClaim_false : ¬ stableSortClaim := by
  intro hcl
  have hinst := hcl false ["A", "B"] ⟨["1", "1"], ["1", "1"], ["1.0", "1.0"], []⟩ [1, 0]
      ⟨["B", "A"], [1, 1], [1, 1], [1, 1], [1, 1], []⟩ [1, 1]
      (by decide) ⟨by decide, by decide⟩ (by decide)
      0 1 (by decide) (by decide) (by decide)
  exact absurd hinst (by decide)

/-- C1 (amended): `sortStats` keeps records with equal performance in their
original relative order when the permutation applied is the stable argsort
of the performance values (`np.argsort(..., kind="stable")`), which is a
valid argsort result; output position `p` holds original record `idx[p]`,
and among positions with equal performance those original indices increase.
The default argsort kind leaves the tie order unspecified. -/
theorem sortStats_stable_with_stable_argsort {g : Bool} {files : List String}
    {st : Stats} {r : SortedStats} {perfQ : List ℚ}
    (hq : mapOpt pyFloat st.performance = some perfQ)
    (h : sortStats g files st (stableArgsort perfQ) = .ok r) :
    isArgsortOf perfQ (stableArgsort perfQ) ∧
    (∀ p, p < (stableArgsort perfQ).length →
      r.files.get? p = files.get? ((stableArgsort perfQ).getD p 0)) ∧
    (∀ p q2 : Nat, p < q2 → q2 < (stableArgsort perfQ).length →
      perfQ.getD ((stableArgsort perfQ).getD p 0) 0
        = perfQ.getD ((stableArgsort perfQ).getD q2 0) 0 →
      (stableArgsort perfQ).getD p 0 < (stableArgsort perfQ).getD q2 0) := by
  obtain ⟨np, nt, pf, _, _, _, h4, _, _, _, _, _, _⟩ := sortStats_ok_elim h
  exact ⟨stableArgsort_isArgsortOf perfQ,
    fun p hp => npIndex_get? h4 hp,
    stableArgsort_stable perfQ⟩

/-- Witness for C1's amended theorem on two tied records. -/
theorem sortStats_stable_with_stable_argsort_witness :
    mapOpt pyFloat (Stats.mk ["1", "1"] ["1", "1"] ["1.0", "1.0"] []).performance
      = some [(1 : ℚ), 1] ∧
    sortStats false ["A", "B"] ⟨["1", "1"], ["1", "1"], ["1.0", "1.0"], []⟩
      (stableArgsort [(1 : ℚ), 1]) = .ok ⟨["A", "B"], [1, 1], [1, 1], [1, 1], [1, 1], []⟩ ∧
    (isArgsortOf [(1 : ℚ), 1] (stableArgsort [(1 : ℚ), 1]) ∧
     (∀ p, p < (stableArgsort [(1 : ℚ), 1]).length →
       (SortedStats.mk ["A", "B"] [1, 1] [1, 1] [1, 1] [1, 1] []).files.get? p
         = (["A", "B"] : List String).get? ((stableArgsort [(1 : ℚ), 1]).getD p 0)) ∧
     (∀ p q2 : Nat, p < q2 → q2 < (stableArgsort [(1 : ℚ), 1]).length →
       ([(1 : ℚ), 1]).getD ((stableArgsort [(1 : ℚ), 1]).getD p 0) 0
         = ([(1 : ℚ), 1]).getD ((stableArgsort [(1 : ℚ), 1]).getD q2 0) 0 →
       (stableArgsort [(1 : ℚ), 1]).getD p 0 < (stableArgsort [(1 : ℚ), 1]).getD q2 0)) :=
  ⟨by decide, by decide,
    @sortStats_stable_with_stable_argsort false ["A", "B"]
      ⟨["1", "1"], ["1", "1"], ["1.0", "1.0"], []⟩
      ⟨["A", "B"], [1, 1], [1, 1], [1, 1], [1, 1], []⟩ [(1 : ℚ), 1]
      (by decide) (by decide)⟩
